import Mathlib

/-!
# OrpheusReader core verification

Shallow embedding of the two algorithmic cores of the OrpheusReader
repository:

* the smart text chunker (`TextChunker` in the chunker module, reproduced
  verbatim in README.md): `chunk`, `splitIntoParagraphs`,
  `splitIntoSentences`, `chunkBySentences`, `chunkByWords` and
  `validateChunks`;
* the audio concatenation pipeline (`AudioProcessor`):
  `concatenateBuffers`, `concatenateFiles`, `concatenateWithFFmpeg` and
  `simpleConcatenate`.

JavaScript strings are modelled as `List Char`; audio byte buffers as
`List Nat`.  The character-slicing loop of `chunkByWords` can fail to
terminate in the source (its index advances by `safeChunkSize`, which is
`0` when `maxChunkSize = 1`), so it is embedded with an explicit fuel
parameter and the whole chunking pipeline returns `Option`: `none` models
the non-terminating run.  The fuel supplied (`word.length + 1`) is proved
sufficient whenever the loop terminates in the source
(`safeChunkSize ≥ 1`), and the loop is proved to make no progress for any
amount of fuel when `safeChunkSize = 0`, so `none` is returned exactly on
the diverging runs.
-/

namespace TextChunker

/-- The JavaScript whitespace class used by `\s`, `String.prototype.trim`
and the splitting regexes, restricted to its ASCII members (space, tab,
newline, carriage return, vertical tab, form feed) plus no-break space. -/
def isWs (c : Char) : Bool :=
  c == ' ' || c == '\t' || c == '\n' || c == '\r' ||
  c == '\u000B' || c == '\u000C' || c == ' '

/-- `String.prototype.trim`: strip whitespace from both ends. -/
def trim (s : List Char) : List Char :=
  ((s.dropWhile isWs).reverse.dropWhile isWs).reverse

/-- The prefix of a character run up to and including its last newline
(empty when the run has no newline).  This is the amount of a whitespace
run consumed by the greedy `\s*` of the paragraph separator regex
`\n\s*\n` after its leading newline. -/
def lastNlSeg (run : List Char) : List Char :=
  (run.reverse.dropWhile (fun d => !(d == '\n'))).reverse

/-- Scanner for `text.split(/\n\s*\n/)`: a separator match starts at a
newline whose following maximal whitespace run contains another newline,
and greedily consumes that run up to its last newline.  Structural
recursion on a fuel argument keeps the definition kernel-reducible;
every step consumes at least one character, so fuel `l.length + 1` never
hits the out-of-fuel arm (whose value is chosen to agree with the scan
that finds no further separator). -/
def paraSplitGo (fuel : Nat) (acc : List Char) (l : List Char) : List (List Char) :=
  match fuel, l with
  | _, [] => [acc.reverse]
  | 0, l => [acc.reverse ++ l]
  | fuel + 1, c :: rest =>
    if c == '\n' && (rest.takeWhile isWs).any (fun d => d == '\n') then
      acc.reverse :: paraSplitGo fuel [] (rest.drop (lastNlSeg (rest.takeWhile isWs)).length)
    else
      paraSplitGo fuel (c :: acc) rest

/-- `splitIntoParagraphs`: split on blank-line boundaries, trim each
piece, drop empty pieces. -/
def splitIntoParagraphs (text : List Char) : List (List Char) :=
  ((paraSplitGo (text.length + 1) [] text).map trim).filter (fun p => 0 < p.length)

/-- `[.!?]` of the sentence-boundary regex. -/
def isSentEnd (c : Char) : Bool :=
  c == '.' || c == '!' || c == '?'

/-- `["']` of the sentence-boundary regex (double or single quote). -/
def isQuote (c : Char) : Bool :=
  c == '"' || c == Char.ofNat 39

/-- `[A-Z]` of the sentence-boundary regex. -/
def isUpper (c : Char) : Bool :=
  'A' ≤ c && c ≤ 'Z'

/-- The lookbehind of the sentence-boundary regex,
`(?<=[.!?])` or `(?<=[.!?]["'])`, evaluated against the reversed list of
characters already scanned. -/
def sentBoundaryPrev (acc : List Char) : Bool :=
  match acc with
  | [] => false
  | p1 :: rest =>
    isSentEnd p1 ||
    (isQuote p1 &&
      match rest with
      | [] => false
      | p2 :: _ => isSentEnd p2)

/-- The lookahead `(?=[A-Z])` applied to the text after the whitespace
run. -/
def headIsUpper : List Char → Bool
  | [] => false
  | d :: _ => isUpper d

/-- Scanner for
`text.split(/(?<=[.!?])\s+(?=[A-Z])|(?<=[.!?]["'])\s+(?=[A-Z])/g)`:
a separator is a maximal whitespace run whose preceding character
satisfies the lookbehind and which is followed by a capital letter. -/
def sentSplitGo (fuel : Nat) (acc : List Char) (l : List Char) : List (List Char) :=
  match fuel, l with
  | _, [] => [acc.reverse]
  | 0, l => [acc.reverse ++ l]
  | fuel + 1, c :: rest =>
    if isWs c && sentBoundaryPrev acc && headIsUpper (rest.dropWhile isWs) then
      acc.reverse :: sentSplitGo fuel [] (rest.dropWhile isWs)
    else
      sentSplitGo fuel (c :: acc) rest

/-- `splitIntoSentences`: split at heuristic sentence boundaries, trim
each piece, drop empty pieces. -/
def splitIntoSentences (text : List Char) : List (List Char) :=
  ((sentSplitGo (text.length + 1) [] text).map trim).filter (fun s => 0 < s.length)

/-- Scanner for `text.split(/\s+/)`: split at every maximal whitespace
run, keeping the (possibly empty) pieces at the boundaries, exactly as
the JavaScript split does. -/
def wsSplitGo (fuel : Nat) (acc : List Char) (l : List Char) : List (List Char) :=
  match fuel, l with
  | _, [] => [acc.reverse]
  | 0, l => [acc.reverse ++ l]
  | fuel + 1, c :: rest =>
    if isWs c then
      acc.reverse :: wsSplitGo fuel [] (rest.dropWhile isWs)
    else
      wsSplitGo fuel (c :: acc) rest

/-- `text.split(/\s+/)` with its natural fuel. -/
def splitWords (text : List Char) : List (List Char) :=
  wsSplitGo (text.length + 1) [] text

/-- The character-slicing loop of `chunkByWords`:
`for (let i = 0; i < word.length; i += safe) push(word.slice(i, i + safe))`,
with explicit fuel; `none` models running out of fuel.  When `safe = 0`
the source loop never terminates, and no amount of fuel returns `some`. -/
def charSplitGo (safe : Nat) (word : List Char) : Nat → Nat → Option (List (List Char))
  | 0, _ => none
  | fuel + 1, i =>
    if i < word.length then
      match charSplitGo safe word fuel (i + safe) with
      | none => none
      | some rest => some (((word.drop i).take safe) :: rest)
    else
      some []

/-- The character-slicing loop run from index 0 with fuel
`word.length + 1`, which is sufficient whenever `safe ≥ 1`. -/
def charSplit (safe : Nat) (word : List Char) : Option (List (List Char)) :=
  charSplitGo safe word (word.length + 1) 0

/-- `if (currentChunk.trim().length > 0) chunks.push(currentChunk.trim())`. -/
def flushChunk (cur : List Char) : List (List Char) :=
  if 0 < (trim cur).length then [trim cur] else []

/-- `currentChunk += (currentChunk.length > 0 ? sep : '') + piece`. -/
def joinWith (sep : List Char) (cur piece : List Char) : List Char :=
  if 0 < cur.length then cur ++ sep ++ piece else piece

/-- The word-accumulation loop of `chunkByWords`. -/
def chunkByWordsAux (safe : Nat) : List (List Char) → List Char → Option (List (List Char))
  | [], cur => some (flushChunk cur)
  | w :: ws, cur =>
    if safe < w.length then
      (charSplit safe w).bind (fun pieces =>
        (chunkByWordsAux safe ws []).map (fun rest =>
          flushChunk cur ++ pieces ++ rest))
    else if safe < cur.length + w.length + 1 then
      (chunkByWordsAux safe ws w).map (fun rest => flushChunk cur ++ rest)
    else
      chunkByWordsAux safe ws (joinWith [' '] cur w)

/-- `chunkByWords`: split on whitespace and greedily accumulate words,
character-slicing any word longer than `safe`. -/
def chunkByWords (safe : Nat) (text : List Char) : Option (List (List Char)) :=
  chunkByWordsAux safe (splitWords text) []

/-- The sentence-accumulation loop of `chunkBySentences`. -/
def chunkBySentencesAux (safe : Nat) : List (List Char) → List Char → Option (List (List Char))
  | [], cur => some (flushChunk cur)
  | s :: ss, cur =>
    if safe < s.length then
      (chunkByWords safe s).bind (fun wcs =>
        (chunkBySentencesAux safe ss []).map (fun rest =>
          flushChunk cur ++ wcs ++ rest))
    else if safe < cur.length + s.length + 1 then
      (chunkBySentencesAux safe ss s).map (fun rest => flushChunk cur ++ rest)
    else
      chunkBySentencesAux safe ss (joinWith [' '] cur s)

/-- `chunkBySentences`: split into sentences and greedily accumulate
them, delegating over-long sentences to `chunkByWords`. -/
def chunkBySentences (safe : Nat) (text : List Char) : Option (List (List Char)) :=
  chunkBySentencesAux safe (splitIntoSentences text) []

/-- The paragraph-accumulation loop of `chunk`.  Note the flush check
budgets a single joining character (`+ 1`) while the actual join inserts
the two characters of a blank line. -/
def chunkAux (safe : Nat) : List (List Char) → List Char → Option (List (List Char))
  | [], cur => some (flushChunk cur)
  | p :: ps, cur =>
    if safe < p.length then
      (chunkBySentences safe p).bind (fun scs =>
        (chunkAux safe ps []).map (fun rest =>
          flushChunk cur ++ scs ++ rest))
    else if safe < cur.length + p.length + 1 then
      (chunkAux safe ps p).map (fun rest => flushChunk cur ++ rest)
    else
      chunkAux safe ps (joinWith ['\n', '\n'] cur p)

/-- `this.safeChunkSize = Math.floor(maxChunkSize * 0.95)`.  Modelled as
exact rational arithmetic `maxChunkSize * 95 / 100`; for every integer a
JavaScript engine can hold exactly this agrees with the double-precision
computation, whose rounding error is far below the distance to the
nearest integer boundary. -/
def safeChunkSize (maxChunkSize : Nat) : Nat :=
  maxChunkSize * 95 / 100

/-- `TextChunker.chunk`: empty/whitespace-only text gives no chunks; a
text whose raw length fits in `safeChunkSize` is returned trimmed as the
sole chunk; otherwise paragraphs are accumulated, over-long paragraphs
are subdivided, and empty chunks are filtered from the result. -/
def chunk (maxChunkSize : Nat) (text : List Char) : Option (List (List Char)) :=
  if (trim text).length = 0 then some []
  else if text.length ≤ safeChunkSize maxChunkSize then some [trim text]
  else
    (chunkAux (safeChunkSize maxChunkSize) (splitIntoParagraphs text) []).map
      (fun cs => cs.filter (fun c => 0 < c.length))

/-- `validateChunks`: every chunk fits in `maxChunkSize`. -/
def validateChunks (maxChunkSize : Nat) (chunks : List (List Char)) : Bool :=
  chunks.all (fun c => c.length ≤ maxChunkSize)

end TextChunker

namespace AudioProcessor

/-!
The concatenation pipeline performs blocking I/O and shells out to
FFmpeg.  It is embedded as a deterministic state-passing model: the
oracle `ExecEnv` fixes the outcome of each external-world probe
(`checkFFmpeg`, and the two `execAsync` FFmpeg invocations), audio
buffers and file contents are byte lists, and each operation returns a
record describing its result together with the transient files it leaves
behind.  Writing a buffer to a temp file and reading it back is the
identity on contents, so `concatenateFiles` receives the buffer contents
directly in place of the temp file paths.
-/

/-- Outcome oracle for the external world: whether `ffmpeg -version`
succeeds, whether the concat-demuxer invocation succeeds, and whether
the filter-complex invocation succeeds. -/
structure ExecEnv where
  ffmpegAvailable : Bool
  demuxerOk : Bool
  filterOk : Bool
deriving DecidableEq

/-- One FFmpeg concatenation invocation, identified by its strategy. -/
inductive FfmpegCall
  | demuxConcat
  | filterConcat
deriving DecidableEq

/-- Content of the produced audio file: `remuxed` is the (opaque) result
of a successful FFmpeg concatenation of the given inputs; `raw` is a
plain byte string, as written by `fs.writeFile` or `simpleConcatenate`. -/
inductive AudioOut
  | remuxed (inputs : List (List Nat))
  | raw (data : List Nat)
deriving DecidableEq

/-- The errors thrown by the concatenation pipeline:
`'No audio buffers provided'`, `'No input files provided'`,
`'FFmpeg concatenation failed: ...'`, and the
`'Failed to concatenate audio: ...'` wrapper that `concatenateBuffers`
puts around any inner error. -/
inductive CErr
  | noInput
  | noInputFiles
  | ffmpegFailed
  | wrapped (e : CErr)
deriving DecidableEq

instance {ε α : Type} [DecidableEq ε] [DecidableEq α] : DecidableEq (Except ε α) := fun x y =>
  match x, y with
  | .ok a, .ok b =>
    if h : a = b then isTrue (by rw [h])
    else isFalse (by intro hc; cases hc; exact h rfl)
  | .error a, .error b =>
    if h : a = b then isTrue (by rw [h])
    else isFalse (by intro hc; cases hc; exact h rfl)
  | .ok _, .error _ => isFalse (by intro hc; cases hc)
  | .error _, .ok _ => isFalse (by intro hc; cases hc)

/-- Result of `concatenateWithFFmpeg` (and `concatenateFiles`): the
returned or thrown value, the FFmpeg invocations attempted in order, and
whether the concat list file is left behind. -/
structure FfmpegOutcome where
  result : Except CErr AudioOut
  calls : List FfmpegCall
  listFileLeft : Bool
deriving DecidableEq

/-- `simpleConcatenate`: read every input file and write the byte
concatenation of their contents. -/
def simpleConcatenate (inputs : List (List Nat)) : AudioOut :=
  .raw inputs.flatten

/-- `concatenateWithFFmpeg`: write the concat list file, try the concat
demuxer; on failure retry once with the filter_complex strategy; on a
second failure throw `ffmpegFailed`.  The `finally` block removes the
list file on every one of the three paths. -/
def concatenateWithFFmpeg (env : ExecEnv) (inputs : List (List Nat)) : FfmpegOutcome :=
  if env.demuxerOk then
    { result := .ok (.remuxed inputs), calls := [.demuxConcat], listFileLeft := false }
  else if env.filterOk then
    { result := .ok (.remuxed inputs), calls := [.demuxConcat, .filterConcat],
      listFileLeft := false }
  else
    { result := .error .ffmpegFailed, calls := [.demuxConcat, .filterConcat],
      listFileLeft := false }

/-- `concatenateFiles`: reject an empty input list, use FFmpeg when
`checkFFmpeg` succeeds, otherwise fall back to `simpleConcatenate` (with
a warning). -/
def concatenateFiles (env : ExecEnv) (inputs : List (List Nat)) : FfmpegOutcome :=
  if inputs.length = 0 then
    { result := .error .noInputFiles, calls := [], listFileLeft := false }
  else if env.ffmpegAvailable then
    concatenateWithFFmpeg env inputs
  else
    { result := .ok (simpleConcatenate inputs), calls := [], listFileLeft := false }

/-- Result of `concatenateBuffers`: the returned or thrown value, the
names of the per-buffer temp chunk files left behind, whether the concat
list file is left behind, and the FFmpeg invocations attempted. -/
structure ConcatOutcome where
  result : Except CErr AudioOut
  tempFilesLeft : List String
  listFileLeft : Bool
  calls : List FfmpegCall
deriving DecidableEq

/-- The name of the i-th per-buffer temp chunk file (the source also
appends a timestamp, which only serves uniqueness). -/
def tempChunkName (i : Nat) : String :=
  "chunk_" ++ toString i

/-- `concatenateBuffers`: throw `noInput` on an empty list; write a
single buffer directly to the output; otherwise write each buffer to a
temp chunk file, concatenate the files, and clean the temp chunk files
up — but only on the success path: the `catch` block wraps and rethrows
the error without removing them. -/
def concatenateBuffers (env : ExecEnv) (buffers : List (List Nat)) : ConcatOutcome :=
  if buffers.length = 0 then
    { result := .error .noInput, tempFilesLeft := [], listFileLeft := false, calls := [] }
  else if buffers.length = 1 then
    { result := .ok (.raw (buffers.headD [])), tempFilesLeft := [], listFileLeft := false,
      calls := [] }
  else
    let fo := concatenateFiles env buffers
    match fo.result with
    | .ok out =>
      { result := .ok out, tempFilesLeft := [], listFileLeft := fo.listFileLeft,
        calls := fo.calls }
    | .error e =>
      { result := .error (.wrapped e),
        tempFilesLeft := (List.range buffers.length).map tempChunkName,
        listFileLeft := fo.listFileLeft, calls := fo.calls }

end AudioProcessor

namespace TextChunker

theorem dropWhile_length_le (p : Char → Bool) :
    ∀ l : List Char, (l.dropWhile p).length ≤ l.length := by
  intro l
  induction l with
  | nil => simp [List.dropWhile]
  | cons c rest ih =>
    by_cases h : p c
    · simp only [List.dropWhile, h]
      exact Nat.le_trans ih (Nat.le_succ _)
    · simp [List.dropWhile, h]

theorem trim_length_le (s : List Char) : (trim s).length ≤ s.length := by
  unfold trim
  calc ((s.dropWhile isWs).reverse.dropWhile isWs).reverse.length
      = ((s.dropWhile isWs).reverse.dropWhile isWs).length := by
        simp
    _ ≤ (s.dropWhile isWs).reverse.length := dropWhile_length_le _ _
    _ = (s.dropWhile isWs).length := by simp
    _ ≤ s.length := dropWhile_length_le _ _

theorem flushChunk_mem {cur c : List Char} (hc : c ∈ flushChunk cur) :
    c.length ≤ cur.length := by
  unfold flushChunk at hc
  split at hc
  · rcases List.mem_singleton.mp hc with rfl
    exact trim_length_le cur
  · simp at hc

theorem charSplitGo_bound (safe : Nat) (word : List Char) :
    ∀ fuel i ss, charSplitGo safe word fuel i = some ss →
      ∀ s ∈ ss, s.length ≤ safe := by
  intro fuel
  induction fuel with
  | zero =>
    intro i ss h
    simp [charSplitGo] at h
  | succ n ih =>
    intro i ss h
    by_cases hi : i < word.length
    · rw [charSplitGo, if_pos hi] at h
      cases hrec : charSplitGo safe word n (i + safe) with
      | none => rw [hrec] at h; exact absurd h (by simp)
      | some rest =>
        rw [hrec] at h
        have hss : ((word.drop i).take safe) :: rest = ss := by
          exact Option.some.inj h
        subst hss
        intro s hs
        rcases List.mem_cons.mp hs with rfl | hmem
        · simp [List.length_take]
        · exact ih (i + safe) rest hrec s hmem
    · rw [charSplitGo, if_neg hi] at h
      have : ([] : List (List Char)) = ss := Option.some.inj h
      subst this
      intro s hs
      simp at hs

theorem charSplitGo_spec (safe : Nat) (hs : 1 ≤ safe) (word : List Char) :
    ∀ fuel i, word.length - i < fuel →
      ∃ ss, charSplitGo safe word fuel i = some ss ∧
        ss.flatten = word.drop i ∧
        (∀ s ∈ ss, 1 ≤ s.length ∧ s.length ≤ safe) ∧
        (∀ s ∈ ss.dropLast, s.length = safe) := by
  intro fuel
  induction fuel with
  | zero => intro i h; omega
  | succ n ih =>
    intro i hfi
    by_cases hi : i < word.length
    · obtain ⟨rest, hrec, hflat, hbnd, hlast⟩ := ih (i + safe) (by omega)
      refine ⟨(word.drop i).take safe :: rest, ?_, ?_, ?_, ?_⟩
      · rw [charSplitGo, if_pos hi, hrec]
      · have hdd : (word.drop i).drop safe = word.drop (i + safe) := by
          rw [List.drop_drop, Nat.add_comm]
        calc ((word.drop i).take safe :: rest).flatten
            = (word.drop i).take safe ++ rest.flatten := by simp
          _ = (word.drop i).take safe ++ (word.drop i).drop safe := by rw [hflat, hdd]
          _ = word.drop i := List.take_append_drop _ _
      · intro s hsm
        rcases List.mem_cons.mp hsm with rfl | hmem
        · have hlen : ((word.drop i).take safe).length = min safe (word.length - i) := by
            simp [List.length_take]
          constructor <;> omega
        · exact hbnd s hmem
      · cases rest with
        | nil => simp
        | cons r rs =>
          intro s hsm
          have hne : word.drop (i + safe) ≠ [] := by
            intro hnil
            rw [hnil] at hflat
            have h1 : 1 ≤ r.length := (hbnd r (List.mem_cons_self r rs)).1
            have : r.length + rs.flatten.length = 0 := by
              have := congrArg List.length hflat
              simpa using this
            omega
          have hlt : i + safe < word.length := by
            by_contra hge
            exact hne (List.drop_eq_nil_of_le (by omega))
          have hdl : ((word.drop i).take safe :: r :: rs).dropLast
              = (word.drop i).take safe :: (r :: rs).dropLast := rfl
          rw [hdl] at hsm
          rcases List.mem_cons.mp hsm with rfl | hmem
          · simp [List.length_take]
            omega
          · exact hlast s hmem
    · refine ⟨[], ?_, ?_, ?_, ?_⟩
      · rw [charSplitGo, if_neg hi]
      · rw [List.drop_eq_nil_of_le (by omega)]; rfl
      · intro s hsm; simp at hsm
      · intro s hsm; simp at hsm

theorem charSplitGo_zero (word : List Char) :
    ∀ fuel i, i < word.length → charSplitGo 0 word fuel i = none := by
  intro fuel
  induction fuel with
  | zero => intro i _; rfl
  | succ n ih =>
    intro i hi
    rw [charSplitGo, if_pos hi]
    have := ih i hi
    rw [Nat.add_zero, this]

theorem charSplit_spec (safe : Nat) (hs : 1 ≤ safe) (word : List Char) :
    ∃ ss, charSplit safe word = some ss ∧
      ss.flatten = word ∧
      (∀ s ∈ ss, 1 ≤ s.length ∧ s.length ≤ safe) ∧
      (∀ s ∈ ss.dropLast, s.length = safe) := by
  obtain ⟨ss, h1, h2, h3, h4⟩ :=
    charSplitGo_spec safe hs word (word.length + 1) 0 (by omega)
  exact ⟨ss, h1, by simpa using h2, h3, h4⟩

theorem charSplit_bound {safe : Nat} {word : List Char} {ss : List (List Char)}
    (h : charSplit safe word = some ss) : ∀ s ∈ ss, s.length ≤ safe :=
  charSplitGo_bound safe word (word.length + 1) 0 ss h

end TextChunker

namespace TextChunker

theorem joinWith_length (sep cur piece : List Char) :
    (joinWith sep cur piece).length =
      if 0 < cur.length then cur.length + sep.length + piece.length
      else piece.length := by
  unfold joinWith
  split
  · simp
    omega
  · simp

theorem chunkByWordsAux_bound (safe : Nat) :
    ∀ ws cur r, chunkByWordsAux safe ws cur = some r → cur.length ≤ safe →
      ∀ c ∈ r, c.length ≤ safe := by
  intro ws
  induction ws with
  | nil =>
    intro cur r h hcur c hc
    simp only [chunkByWordsAux, Option.some.injEq] at h
    subst h
    exact le_trans (flushChunk_mem hc) hcur
  | cons w ws ih =>
    intro cur r h hcur c hc
    simp only [chunkByWordsAux] at h
    by_cases h1 : safe < w.length
    · rw [if_pos h1] at h
      obtain ⟨pieces, hp, hmap⟩ := Option.bind_eq_some.mp h
      obtain ⟨rest, hrest, hr⟩ := Option.map_eq_some'.mp hmap
      subst hr
      rcases List.mem_append.mp hc with hc' | hcrest
      · rcases List.mem_append.mp hc' with hcf | hcp
        · exact le_trans (flushChunk_mem hcf) hcur
        · exact charSplit_bound hp c hcp
      · exact ih [] rest hrest (Nat.zero_le safe) c hcrest
    · rw [if_neg h1] at h
      by_cases h2 : safe < cur.length + w.length + 1
      · rw [if_pos h2] at h
        obtain ⟨rest, hrest, hr⟩ := Option.map_eq_some'.mp h
        subst hr
        rcases List.mem_append.mp hc with hcf | hcrest
        · exact le_trans (flushChunk_mem hcf) hcur
        · exact ih w rest hrest (by omega) c hcrest
      · rw [if_neg h2] at h
        refine ih _ r h ?_ c hc
        rw [joinWith_length]
        split
        · simp only [List.length_singleton]
          omega
        · omega

theorem chunkByWords_bound {safe : Nat} {text : List Char} {wcs : List (List Char)}
    (h : chunkByWords safe text = some wcs) : ∀ c ∈ wcs, c.length ≤ safe :=
  chunkByWordsAux_bound safe _ [] wcs h (Nat.zero_le safe)

theorem chunkBySentencesAux_bound (safe : Nat) :
    ∀ ss cur r, chunkBySentencesAux safe ss cur = some r → cur.length ≤ safe →
      ∀ c ∈ r, c.length ≤ safe := by
  intro ss
  induction ss with
  | nil =>
    intro cur r h hcur c hc
    simp only [chunkBySentencesAux, Option.some.injEq] at h
    subst h
    exact le_trans (flushChunk_mem hc) hcur
  | cons s ss ih =>
    intro cur r h hcur c hc
    simp only [chunkBySentencesAux] at h
    by_cases h1 : safe < s.length
    · rw [if_pos h1] at h
      obtain ⟨wcs, hp, hmap⟩ := Option.bind_eq_some.mp h
      obtain ⟨rest, hrest, hr⟩ := Option.map_eq_some'.mp hmap
      subst hr
      rcases List.mem_append.mp hc with hc' | hcrest
      · rcases List.mem_append.mp hc' with hcf | hcw
        · exact le_trans (flushChunk_mem hcf) hcur
        · exact chunkByWords_bound hp c hcw
      · exact ih [] rest hrest (Nat.zero_le safe) c hcrest
    · rw [if_neg h1] at h
      by_cases h2 : safe < cur.length + s.length + 1
      · rw [if_pos h2] at h
        obtain ⟨rest, hrest, hr⟩ := Option.map_eq_some'.mp h
        subst hr
        rcases List.mem_append.mp hc with hcf | hcrest
        · exact le_trans (flushChunk_mem hcf) hcur
        · exact ih s rest hrest (by omega) c hcrest
      · rw [if_neg h2] at h
        refine ih _ r h ?_ c hc
        rw [joinWith_length]
        split
        · simp only [List.length_singleton]
          omega
        · omega

theorem chunkBySentences_bound {safe : Nat} {text : List Char} {scs : List (List Char)}
    (h : chunkBySentences safe text = some scs) : ∀ c ∈ scs, c.length ≤ safe :=
  chunkBySentencesAux_bound safe _ [] scs h (Nat.zero_le safe)

theorem chunkAux_bound (safe : Nat) :
    ∀ ps cur r, chunkAux safe ps cur = some r → cur.length ≤ safe + 1 →
      ∀ c ∈ r, c.length ≤ safe + 1 := by
  intro ps
  induction ps with
  | nil =>
    intro cur r h hcur c hc
    simp only [chunkAux, Option.some.injEq] at h
    subst h
    exact le_trans (flushChunk_mem hc) hcur
  | cons p ps ih =>
    intro cur r h hcur c hc
    simp only [chunkAux] at h
    by_cases h1 : safe < p.length
    · rw [if_pos h1] at h
      obtain ⟨scs, hp, hmap⟩ := Option.bind_eq_some.mp h
      obtain ⟨rest, hrest, hr⟩ := Option.map_eq_some'.mp hmap
      subst hr
      rcases List.mem_append.mp hc with hc' | hcrest
      · rcases List.mem_append.mp hc' with hcf | hcs
        · exact le_trans (flushChunk_mem hcf) hcur
        · exact le_trans (chunkBySentences_bound hp c hcs) (Nat.le_succ safe)
      · exact ih [] rest hrest (Nat.zero_le _) c hcrest
    · rw [if_neg h1] at h
      by_cases h2 : safe < cur.length + p.length + 1
      · rw [if_pos h2] at h
        obtain ⟨rest, hrest, hr⟩ := Option.map_eq_some'.mp h
        subst hr
        rcases List.mem_append.mp hc with hcf | hcrest
        · exact le_trans (flushChunk_mem hcf) hcur
        · exact ih p rest hrest (by omega) c hcrest
      · rw [if_neg h2] at h
        refine ih _ r h ?_ c hc
        rw [joinWith_length]
        split
        · simp only [List.length_cons, List.length_nil]
          omega
        · omega

theorem chunk_bound (m : Nat) (text : List Char) (r : List (List Char))
    (h : chunk m text = some r) : ∀ c ∈ r, c.length ≤ safeChunkSize m + 1 := by
  intro c hc
  rw [chunk] at h
  by_cases h0 : (trim text).length = 0
  · rw [if_pos h0] at h
    have : ([] : List (List Char)) = r := Option.some.inj h
    subst this
    simp at hc
  · rw [if_neg h0] at h
    by_cases h1 : text.length ≤ safeChunkSize m
    · rw [if_pos h1] at h
      have : [trim text] = r := Option.some.inj h
      subst this
      rcases List.mem_singleton.mp hc with rfl
      exact le_trans (le_trans (trim_length_le text) h1) (Nat.le_succ _)
    · rw [if_neg h1] at h
      obtain ⟨cs, hcs, hr⟩ := Option.map_eq_some'.mp h
      subst hr
      exact chunkAux_bound (safeChunkSize m) _ [] cs hcs (Nat.zero_le _) c
        (List.mem_of_mem_filter hc)

end TextChunker

namespace TextChunker

theorem charSplit_some {safe : Nat} (hs : 1 ≤ safe) (word : List Char) :
    ∃ ss, charSplit safe word = some ss := by
  obtain ⟨ss, h, -, -, -⟩ := charSplit_spec safe hs word
  exact ⟨ss, h⟩

theorem chunkByWordsAux_some {safe : Nat} (hs : 1 ≤ safe) :
    ∀ ws cur, ∃ r, chunkByWordsAux safe ws cur = some r := by
  intro ws
  induction ws with
  | nil => intro cur; exact ⟨flushChunk cur, rfl⟩
  | cons w ws ih =>
    intro cur
    simp only [chunkByWordsAux]
    by_cases h1 : safe < w.length
    · rw [if_pos h1]
      obtain ⟨pieces, hp⟩ := charSplit_some hs w
      obtain ⟨rest, hrest⟩ := ih []
      exact ⟨flushChunk cur ++ pieces ++ rest, by rw [hp, hrest]; rfl⟩
    · rw [if_neg h1]
      by_cases h2 : safe < cur.length + w.length + 1
      · rw [if_pos h2]
        obtain ⟨rest, hrest⟩ := ih w
        exact ⟨flushChunk cur ++ rest, by rw [hrest]; rfl⟩
      · rw [if_neg h2]
        exact ih _

theorem chunkByWords_some {safe : Nat} (hs : 1 ≤ safe) (text : List Char) :
    ∃ r, chunkByWords safe text = some r :=
  chunkByWordsAux_some hs _ []

theorem chunkBySentencesAux_some {safe : Nat} (hs : 1 ≤ safe) :
    ∀ ss cur, ∃ r, chunkBySentencesAux safe ss cur = some r := by
  intro ss
  induction ss with
  | nil => intro cur; exact ⟨flushChunk cur, rfl⟩
  | cons s ss ih =>
    intro cur
    simp only [chunkBySentencesAux]
    by_cases h1 : safe < s.length
    · rw [if_pos h1]
      obtain ⟨wcs, hw⟩ := chunkByWords_some hs s
      obtain ⟨rest, hrest⟩ := ih []
      exact ⟨flushChunk cur ++ wcs ++ rest, by rw [hw, hrest]; rfl⟩
    · rw [if_neg h1]
      by_cases h2 : safe < cur.length + s.length + 1
      · rw [if_pos h2]
        obtain ⟨rest, hrest⟩ := ih s
        exact ⟨flushChunk cur ++ rest, by rw [hrest]; rfl⟩
      · rw [if_neg h2]
        exact ih _

theorem chunkBySentences_some {safe : Nat} (hs : 1 ≤ safe) (text : List Char) :
    ∃ r, chunkBySentences safe text = some r :=
  chunkBySentencesAux_some hs _ []

theorem chunkAux_some {safe : Nat} (hs : 1 ≤ safe) :
    ∀ ps cur, ∃ r, chunkAux safe ps cur = some r := by
  intro ps
  induction ps with
  | nil => intro cur; exact ⟨flushChunk cur, rfl⟩
  | cons p ps ih =>
    intro cur
    simp only [chunkAux]
    by_cases h1 : safe < p.length
    · rw [if_pos h1]
      obtain ⟨scs, hsc⟩ := chunkBySentences_some hs p
      obtain ⟨rest, hrest⟩ := ih []
      exact ⟨flushChunk cur ++ scs ++ rest, by rw [hsc, hrest]; rfl⟩
    · rw [if_neg h1]
      by_cases h2 : safe < cur.length + p.length + 1
      · rw [if_pos h2]
        obtain ⟨rest, hrest⟩ := ih p
        exact ⟨flushChunk cur ++ rest, by rw [hrest]; rfl⟩
      · rw [if_neg h2]
        exact ih _

theorem safeChunkSize_lt {m : Nat} (hm : 1 ≤ m) : safeChunkSize m < m := by
  unfold safeChunkSize
  rw [Nat.div_lt_iff_lt_mul (by norm_num : (0:Nat) < 100)]
  have h5 : 5 ≤ m * 5 := Nat.le_mul_of_pos_left 5 hm
  have hr : m * 100 = m * 95 + m * 5 := by ring
  omega

theorem safeChunkSize_le (m : Nat) : safeChunkSize m ≤ m := by
  rcases Nat.eq_zero_or_pos m with rfl | hm
  · simp [safeChunkSize]
  · exact Nat.le_of_lt (safeChunkSize_lt hm)

theorem one_le_safeChunkSize {m : Nat} (hm : 2 ≤ m) : 1 ≤ safeChunkSize m := by
  unfold safeChunkSize
  rw [Nat.le_div_iff_mul_le (by norm_num : (0:Nat) < 100)]
  have h : 2 * 95 ≤ m * 95 := Nat.mul_le_mul_right 95 hm
  omega

theorem chunk_some {m : Nat} (hm : 2 ≤ m) (text : List Char) :
    ∃ r, chunk m text = some r := by
  rw [chunk]
  by_cases h0 : (trim text).length = 0
  · exact ⟨[], by rw [if_pos h0]⟩
  · rw [if_neg h0]
    by_cases h1 : text.length ≤ safeChunkSize m
    · exact ⟨[trim text], by rw [if_pos h1]⟩
    · rw [if_neg h1]
      obtain ⟨cs, hcs⟩ := chunkAux_some (one_le_safeChunkSize hm) (splitIntoParagraphs text) []
      exact ⟨cs.filter (fun c => 0 < c.length), by rw [hcs]; rfl⟩

end TextChunker

namespace TextChunker

theorem flushChunk_nil : flushChunk [] = [] := rfl

theorem dropWhile_eq_self_of_not (p : Char → Bool) (s : List Char)
    (h : ∀ c ∈ s, p c = false) : s.dropWhile p = s := by
  cases s with
  | nil => rfl
  | cons c rest =>
    simp [List.dropWhile_cons, h c (List.mem_cons_self c rest)]

theorem trim_eq_self_of_no_ws (s : List Char) (h : ∀ c ∈ s, isWs c = false) :
    trim s = s := by
  unfold trim
  rw [dropWhile_eq_self_of_not _ _ h,
    dropWhile_eq_self_of_not _ _ (fun c hc => h c (List.mem_reverse.mp hc)),
    List.reverse_reverse]

theorem paraSplitGo_no_ws :
    ∀ s : List Char, (∀ c ∈ s, isWs c = false) →
      ∀ fuel acc, paraSplitGo fuel acc s = [acc.reverse ++ s] := by
  intro s
  induction s with
  | nil =>
    intro _ fuel acc
    cases fuel <;> simp [paraSplitGo]
  | cons c rest ih =>
    intro h fuel acc
    cases fuel with
    | zero => rfl
    | succ n =>
      have hc : isWs c = false := h c (List.mem_cons_self c rest)
      have hcn : (c == '\n') = false := by
        rw [beq_eq_false_iff_ne]
        intro hq
        rw [hq] at hc
        simp [isWs] at hc
      have hrest := ih (fun d hd => h d (List.mem_cons_of_mem c hd)) n (c :: acc)
      simp [paraSplitGo, hcn, hrest]

theorem sentSplitGo_no_ws :
    ∀ s : List Char, (∀ c ∈ s, isWs c = false) →
      ∀ fuel acc, sentSplitGo fuel acc s = [acc.reverse ++ s] := by
  intro s
  induction s with
  | nil =>
    intro _ fuel acc
    cases fuel <;> simp [sentSplitGo]
  | cons c rest ih =>
    intro h fuel acc
    cases fuel with
    | zero => rfl
    | succ n =>
      have hc : isWs c = false := h c (List.mem_cons_self c rest)
      have hrest := ih (fun d hd => h d (List.mem_cons_of_mem c hd)) n (c :: acc)
      simp [sentSplitGo, hc, hrest]

theorem wsSplitGo_no_ws :
    ∀ s : List Char, (∀ c ∈ s, isWs c = false) →
      ∀ fuel acc, wsSplitGo fuel acc s = [acc.reverse ++ s] := by
  intro s
  induction s with
  | nil =>
    intro _ fuel acc
    cases fuel <;> simp [wsSplitGo]
  | cons c rest ih =>
    intro h fuel acc
    cases fuel with
    | zero => rfl
    | succ n =>
      have hc : isWs c = false := h c (List.mem_cons_self c rest)
      have hrest := ih (fun d hd => h d (List.mem_cons_of_mem c hd)) n (c :: acc)
      simp [wsSplitGo, hc, hrest]

theorem splitIntoParagraphs_no_ws (s : List Char) (h : ∀ c ∈ s, isWs c = false)
    (hne : s ≠ []) : splitIntoParagraphs s = [s] := by
  unfold splitIntoParagraphs
  rw [paraSplitGo_no_ws s h _ []]
  simp [trim_eq_self_of_no_ws s h, List.length_pos.mpr hne]

theorem splitIntoSentences_no_ws (s : List Char) (h : ∀ c ∈ s, isWs c = false)
    (hne : s ≠ []) : splitIntoSentences s = [s] := by
  unfold splitIntoSentences
  rw [sentSplitGo_no_ws s h _ []]
  simp [trim_eq_self_of_no_ws s h, List.length_pos.mpr hne]

theorem splitWords_no_ws (s : List Char) (h : ∀ c ∈ s, isWs c = false) :
    splitWords s = [s] := by
  unfold splitWords
  rw [wsSplitGo_no_ws s h _ []]
  rfl

end TextChunker

section Claims

open TextChunker AudioProcessor

/-- C1: for every positive `maxChunkSize` and every text, every chunk of
any terminating run of `chunk` has length at most `maxChunkSize`: the
paragraph accumulator can overshoot `safeChunkSize` by one character,
but `safeChunkSize + 1 ≤ maxChunkSize` always holds. -/
theorem chunk_hard_ceiling (m : Nat) (text : List Char) (r : List (List Char))
    (hm : 1 ≤ m) (h : chunk m text = some r) :
    ∀ c ∈ r, c.length ≤ m := by
  intro c hc
  have h1 := chunk_bound m text r h c hc
  have h2 := safeChunkSize_lt hm
  omega

/-- Witness for C1 at `maxChunkSize = 12` and the text `hello world`. -/
theorem chunk_hard_ceiling_witness :
    ("hello world".toList).length ≤ 12 :=
  chunk_hard_ceiling 12 ("hello world".toList) [("hello world".toList)]
    (by norm_num) (by decide) ("hello world".toList) (List.mem_singleton.mpr rfl)

/-- C2 counterexample: with `maxChunkSize = 1` the chunker never
returns: `safeChunkSize = 0`, so the character-split loop advances its
index by zero forever; in the embedding the diverging run is `none`. -/
theorem chunk_diverges_at_one : chunk 1 ("ab".toList) = none := by decide

/-- C2 (amended): for every `maxChunkSize ≥ 2` (equivalently
`safeChunkSize ≥ 1`) and every text, `chunk` terminates and returns a
chunk sequence. -/
theorem chunk_total_from_two (m : Nat) (text : List Char) (hm : 2 ≤ m) :
    ∃ r, chunk m text = some r :=
  chunk_some hm text

/-- Witness for C2 (amended) at `maxChunkSize = 2`. -/
theorem chunk_total_from_two_witness : (chunk 2 ("xy z".toList)).isSome = true := by
  obtain ⟨r, hr⟩ := chunk_total_from_two 2 ("xy z".toList) (by norm_num)
  rw [hr]
  rfl

/-- C3 counterexample: the single-chunk shortcut tests the raw length,
not the trimmed length.  This 21-character text trims to 5 characters
(within `safeChunkSize 20 = 19`), yet `chunk` takes the paragraph path
and returns a chunk different from the trimmed input (the three-newline
separator is rebuilt as a two-newline join). -/
theorem chunk_trimmed_guard_fails :
    (trim ("a \n\nb               ".toList)).length ≤ safeChunkSize 20 ∧
      chunk 20 ("a \n\nb               ".toList) ≠
        some [trim ("a \n\nb               ".toList)] := by decide

/-- C3 (amended): for every text whose raw (untrimmed) length is at most
`safeChunkSize` and whose trimmed form is non-empty, `chunk` returns
exactly one chunk, the trimmed input. -/
theorem chunk_short_raw_single (m : Nat) (text : List Char)
    (hlen : text.length ≤ safeChunkSize m)
    (hne : (trim text).length ≠ 0) :
    chunk m text = some [trim text] := by
  rw [chunk, if_neg hne, if_pos hlen]

/-- Witness for C3 (amended) at `maxChunkSize = 20` and the text
`hello`. -/
theorem chunk_short_raw_single_witness :
    chunk 20 ("hello".toList) = some [trim ("hello".toList)] :=
  chunk_short_raw_single 20 ("hello".toList) (by decide) (by decide)

/-- C8 counterexample: at `maxChunkSize = 1` an over-long word is not
split at all — the character-split loop advances by `safeChunkSize = 0`
and the chunker never returns (`none` in the embedding), so no slicing
of the word is produced. -/
theorem chunk_overlong_word_diverges : chunk 1 ("abc".toList) = none := by decide

/-- C8 (amended): for every `maxChunkSize ≥ 2` and every single word
(no whitespace characters) longer than `maxChunkSize`, `chunk` splits it
at the character level into consecutive slices whose concatenation is
the word, each of length exactly `safeChunkSize` except possibly the
last (which is non-empty and no longer than `safeChunkSize`). -/
theorem chunk_overlong_word_slices (m : Nat) (w : List Char) (hm : 2 ≤ m)
    (hw : ∀ c ∈ w, isWs c = false) (hlen : m < w.length) :
    ∃ ss, chunk m w = some ss ∧
      ss.flatten = w ∧
      (∀ s ∈ ss.dropLast, s.length = safeChunkSize m) ∧
      (∀ s ∈ ss, 1 ≤ s.length ∧ s.length ≤ safeChunkSize m) := by
  have hs : 1 ≤ safeChunkSize m := one_le_safeChunkSize hm
  have hsl : safeChunkSize m < w.length :=
    lt_of_le_of_lt (safeChunkSize_le m) hlen
  have hne : w ≠ [] := by
    intro hq
    rw [hq] at hlen
    simp at hlen
  have htr : trim w = w := trim_eq_self_of_no_ws w hw
  obtain ⟨ss, hss, hflat, hbnd, hlast⟩ := charSplit_spec (safeChunkSize m) hs w
  have hcw : chunkByWords (safeChunkSize m) w = some ss := by
    rw [chunkByWords, splitWords_no_ws w hw]
    simp only [chunkByWordsAux]
    rw [if_pos hsl, hss]
    simp [flushChunk_nil]
  have hcs : chunkBySentences (safeChunkSize m) w = some ss := by
    rw [chunkBySentences, splitIntoSentences_no_ws w hw hne]
    simp only [chunkBySentencesAux]
    rw [if_pos hsl, hcw]
    simp [flushChunk_nil]
  have hca : chunkAux (safeChunkSize m) [w] [] = some ss := by
    simp only [chunkAux]
    rw [if_pos hsl, hcs]
    simp [flushChunk_nil]
  have hfilter : ss.filter (fun c => 0 < c.length) = ss := by
    rw [List.filter_eq_self]
    intro a ha
    have h1 := (hbnd a ha).1
    simp only [decide_eq_true_eq]
    omega
  refine ⟨ss, ?_, hflat, hlast, hbnd⟩
  have h0 : ¬ (trim w).length = 0 := by
    rw [htr]
    have : 0 < w.length := List.length_pos.mpr hne
    omega
  have h1 : ¬ w.length ≤ safeChunkSize m := by omega
  rw [chunk, if_neg h0, if_neg h1, splitIntoParagraphs_no_ws w hw hne, hca]
  simp [hfilter]

/-- Witness for C8 (amended) at `maxChunkSize = 3` and the word
`abcde` (safeChunkSize 3 = 2; slices `ab`, `cd`, `e`). -/
theorem chunk_overlong_word_slices_witness :
    (chunk 3 ("abcde".toList)).isSome = true := by
  obtain ⟨ss, hss, -, -, -⟩ :=
    chunk_overlong_word_slices 3 ("abcde".toList) (by norm_num) (by decide) (by decide)
  rw [hss]
  rfl

/-- C9: the level-2 sentence splitter cuts wherever `.`, `!` or `?` is
immediately followed by whitespace and a capital letter, with no
special-casing: in this input a split occurs after the abbreviation
`Dr.`, no split occurs inside the decimal `3.14` (its period is not
followed by whitespace), and no split occurs after `arrived.` (followed
by a digit, not a capital). -/
theorem sentence_split_heuristic :
    splitIntoSentences ("Dr. Smith arrived. 3.14 is pi. He left.".toList) =
      ["Dr.".toList, "Smith arrived. 3.14 is pi.".toList, "He left.".toList] := by
  decide

/-- C10: every chunk of every terminating run has length at most
`safeChunkSize + 1` — the paragraph accumulator budgets one joining
character but inserts a two-character blank line — and the bound is
attained: at `maxChunkSize = 20` (`safeChunkSize = 19`) two 9-character
paragraphs are joined into a single 20-character chunk. -/
theorem chunk_safe_plus_one_ceiling :
    (∀ (m : Nat) (text : List Char) (r : List (List Char)),
        chunk m text = some r → ∀ c ∈ r, c.length ≤ safeChunkSize m + 1) ∧
      chunk 20 ("aaaaaaaaa\n\nbbbbbbbbb".toList) =
        some [("aaaaaaaaa\n\nbbbbbbbbb".toList)] ∧
      ("aaaaaaaaa\n\nbbbbbbbbb".toList).length = safeChunkSize 20 + 1 :=
  ⟨chunk_bound, by decide, by decide⟩

/-- Witness for C10's universal part at `maxChunkSize = 20`. -/
theorem chunk_safe_plus_one_ceiling_witness :
    ("aaaaaaaaa\n\nbbbbbbbbb".toList).length ≤ safeChunkSize 20 + 1 :=
  chunk_safe_plus_one_ceiling.1 20 ("aaaaaaaaa\n\nbbbbbbbbb".toList)
    [("aaaaaaaaa\n\nbbbbbbbbb".toList)] (by decide)
    ("aaaaaaaaa\n\nbbbbbbbbb".toList) (List.mem_singleton.mpr rfl)

end Claims

namespace AudioProcessor

theorem concatenateWithFFmpeg_listFileLeft (env : ExecEnv) (inputs : List (List Nat)) :
    (concatenateWithFFmpeg env inputs).listFileLeft = false := by
  unfold concatenateWithFFmpeg
  split_ifs <;> rfl

theorem concatenateFiles_listFileLeft (env : ExecEnv) (inputs : List (List Nat)) :
    (concatenateFiles env inputs).listFileLeft = false := by
  unfold concatenateFiles
  split_ifs with h0 h1
  · rfl
  · exact concatenateWithFFmpeg_listFileLeft env inputs
  · rfl

end AudioProcessor

section Claims2

open AudioProcessor

/-- C4 counterexample: when FFmpeg is available and both invocation
strategies fail, `concatenateBuffers` rethrows the wrapped error while
the two per-buffer temp chunk files are still on disk — the transient
files are not removed on this exit path. -/
theorem concat_leaves_temp_files :
    (concatenateBuffers ⟨true, false, false⟩ [[0], [1]]).result =
        .error (.wrapped .ffmpegFailed) ∧
      (concatenateBuffers ⟨true, false, false⟩ [[0], [1]]).tempFilesLeft ≠ [] := by
  decide

/-- C4 (amended): the concat list file is removed on every exit path
(the `finally` in `concatenateWithFFmpeg`); the per-buffer temp chunk
files are removed on the success path; but when concatenation of two or
more buffers fails, every per-buffer temp chunk file is left behind
when the error propagates. -/
theorem concat_cleanup_characterization (env : ExecEnv) (buffers : List (List Nat)) :
    (concatenateBuffers env buffers).listFileLeft = false ∧
      (∀ out, (concatenateBuffers env buffers).result = .ok out →
        (concatenateBuffers env buffers).tempFilesLeft = []) ∧
      (∀ e, (concatenateBuffers env buffers).result = .error e →
        2 ≤ buffers.length →
        (concatenateBuffers env buffers).tempFilesLeft =
          (List.range buffers.length).map tempChunkName) := by
  unfold concatenateBuffers
  by_cases h0 : buffers.length = 0
  · simp [h0]
  · by_cases h1 : buffers.length = 1
    · simp [h0, h1]
    · simp only [h0, h1, if_false]
      cases hres : (concatenateFiles env buffers).result with
      | ok out =>
        simp [hres, concatenateFiles_listFileLeft env buffers]
      | error e =>
        simp [hres, concatenateFiles_listFileLeft env buffers]

/-- Witness for C4 (amended): the failing run of the counterexample
environment leaves exactly the two chunk files behind. -/
theorem concat_cleanup_witness :
    (concatenateBuffers ⟨true, false, false⟩ [[0], [1]]).tempFilesLeft =
      (List.range ([[0], [1]] : List (List Nat)).length).map tempChunkName :=
  (concat_cleanup_characterization ⟨true, false, false⟩ [[0], [1]]).2.2
    (.wrapped .ffmpegFailed) (by decide) (by norm_num)

/-- C5: `concatenateBuffers` throws the no-input error exactly on the
empty buffer list, and in that case nothing is attempted: no FFmpeg
invocation, no transient file, no output. -/
theorem concat_no_input_iff_empty (env : ExecEnv) (buffers : List (List Nat)) :
    ((concatenateBuffers env buffers).result = .error .noInput ↔ buffers = []) ∧
      (buffers = [] →
        concatenateBuffers env buffers =
          ⟨.error .noInput, [], false, []⟩) := by
  constructor
  · constructor
    · intro h
      by_cases h0 : buffers.length = 0
      · exact List.length_eq_zero.mp h0
      · exfalso
        by_cases h1 : buffers.length = 1
        · simp only [concatenateBuffers, if_neg h0, if_pos h1] at h
          simp at h
        · cases hres : (concatenateFiles env buffers).result with
          | ok out =>
            simp only [concatenateBuffers, if_neg h0, if_neg h1, hres] at h
            simp at h
          | error e =>
            simp only [concatenateBuffers, if_neg h0, if_neg h1, hres] at h
            simp at h
    · intro h
      subst h
      rfl
  · intro h
    subst h
    rfl

/-- Witness for C5 on the empty buffer list. -/
theorem concat_no_input_witness :
    concatenateBuffers ⟨true, true, true⟩ [] =
      ⟨.error .noInput, [], false, []⟩ :=
  (concat_no_input_iff_empty ⟨true, true, true⟩ []).2 rfl

/-- C6 counterexample: with the remux tool unavailable and two empty
buffers, the fallback returns successfully but its output is the empty
byte string — not a non-empty output. -/
theorem concat_fallback_empty_output :
    (concatenateBuffers ⟨false, false, false⟩ [[], []]).result = .ok (.raw []) := by
  decide

/-- C6 (amended): with the preferred remux tool unavailable, a
non-empty buffer list concatenates without error into exactly the bytes
of the input buffers appended in order (so the output is non-empty
exactly when the buffers hold at least one byte). -/
theorem concat_fallback_bytes (env : ExecEnv) (buffers : List (List Nat))
    (hffm : env.ffmpegAvailable = false) (hne : buffers ≠ []) :
    (concatenateBuffers env buffers).result = .ok (.raw buffers.flatten) := by
  have h0 : ¬ buffers.length = 0 := fun h => hne (List.length_eq_zero.mp h)
  unfold concatenateBuffers
  rw [if_neg h0]
  by_cases h1 : buffers.length = 1
  · rw [if_pos h1]
    cases buffers with
    | nil => exact absurd rfl hne
    | cons b rest =>
      have hr : rest = [] := by simpa using h1
      subst hr
      simp
  · rw [if_neg h1]
    have hcf : concatenateFiles env buffers =
        ⟨.ok (.raw buffers.flatten), [], false⟩ := by
      unfold concatenateFiles
      rw [if_neg h0, hffm]
      simp [simpleConcatenate]
    rw [hcf]

/-- Witness for C6 (amended) on two one-byte buffers with the tool
unavailable. -/
theorem concat_fallback_bytes_witness :
    (concatenateBuffers ⟨false, false, false⟩ [[1], [2]]).result =
      .ok (.raw ([[1], [2]] : List (List Nat)).flatten) :=
  concat_fallback_bytes ⟨false, false, false⟩ [[1], [2]] rfl (by decide)

/-- C7: `concatenateWithFFmpeg` invokes the demuxer strategy first; on
its failure it retries exactly once with the filter strategy (two
invocations, never more); the retry succeeding yields a success, and
the concatenation error is raised if and only if both the primary
invocation and the single retry fail. -/
theorem concat_retry_once (env : ExecEnv) (inputs : List (List Nat)) :
    (env.demuxerOk = true →
        (concatenateWithFFmpeg env inputs).calls = [.demuxConcat]) ∧
      (env.demuxerOk = false →
        (concatenateWithFFmpeg env inputs).calls = [.demuxConcat, .filterConcat]) ∧
      (env.demuxerOk = false → env.filterOk = true →
        (concatenateWithFFmpeg env inputs).result = .ok (.remuxed inputs)) ∧
      ((concatenateWithFFmpeg env inputs).result = .error .ffmpegFailed ↔
        env.demuxerOk = false ∧ env.filterOk = false) := by
  obtain ⟨av, dm, fl⟩ := env
  cases dm <;> cases fl <;> simp [concatenateWithFFmpeg]

/-- Witness for C7: primary failure followed by a successful filter
retry. -/
theorem concat_retry_once_witness :
    (concatenateWithFFmpeg ⟨true, false, true⟩ [[5]]).result =
      .ok (.remuxed [[5]]) :=
  (concat_retry_once ⟨true, false, true⟩ [[5]]).2.2.1 rfl rfl

end Claims2
